import Mathlib

/-!
Verification of the heredity inference program (heredity.py).

The program performs exact Bayesian inference over a family tree: for each
person it computes posterior distributions over gene count (0, 1, 2 copies)
and trait (true/false), by brute-force enumeration of all joint assignments
consistent with observed evidence.

We embed the source shallowly: probabilities are exact rationals (ℚ),
Python dicts keyed by person names become functions from a name type `α`
with decidable equality, Python sets become lists, and the fallible
`normalize` (which can hit a Python `ZeroDivisionError`) returns `Option`.
-/

namespace Heredity

variable {α : Type} [DecidableEq α]

/-- Record for one row of the people dictionary built by `load_data`:
optional mother name, optional father name, optional observed trait. -/
structure PersonData (α : Type) where
  mother : Option α
  father : Option α
  trait : Option Bool
deriving DecidableEq

/-- The `people` dictionary: its list of keys (names) and the per-name data.
`info` is total; only names in `names` are ever looked up by the program. -/
structure Population (α : Type) where
  names : List α
  info : α → PersonData α

/-- Embeds PROBS["gene"]: unconditional gene-count prior
(2 ↦ 0.01, 1 ↦ 0.03, 0 ↦ 0.96). -/
def PROBS_gene : ℕ → ℚ
  | 2 => 1/100
  | 1 => 3/100
  | _ => 96/100

/-- Embeds PROBS["trait"]: probability of the trait value given gene count. -/
def PROBS_trait : ℕ → Bool → ℚ
  | 2, true => 65/100
  | 2, false => 35/100
  | 1, true => 56/100
  | 1, false => 44/100
  | _, true => 1/100
  | _, false => 99/100

/-- Embeds PROBS["mutation"] = 0.01. -/
def PROBS_mutation : ℚ := 1/100

/-- Embeds `powerset(s)`: the list of all subsets of `s`.  The source builds
them grouped by size via itertools.combinations; we use `List.sublists'`,
which produces exactly the same subsets (every sublist once, in a different
order; no use in the program depends on the order). -/
def powerset (s : List α) : List (List α) :=
  s.sublists'

/-- Embeds `person_prob(person_name, one_gene_names, two_genes_names)`:
the probability that the named parent transmits a functional gene copy,
given the gene sets of the current scenario.  The source hardcodes
0.99 and 0.5 * 0.99 and falls back to PROBS["mutation"]. -/
def person_prob (person_name : α) (one_gene_names two_genes_names : List α) : ℚ :=
  if person_name ∈ two_genes_names then 99/100
  else if person_name ∈ one_gene_names then (1/2) * (99/100)
  else PROBS_mutation

/-- Embeds the body of the first loop of `joint_probability`: the probability
assigned to a name in `one_gene` (founder branch when father or mother is
missing, else pf(1−pm) + pm(1−pf)). -/
def one_gene_prob (people : Population α) (one_gene two_genes : List α) (name : α) : ℚ :=
  match (people.info name).father, (people.info name).mother with
  | some father, some mother =>
    let poppa_p := person_prob father one_gene two_genes
    let momma_p := person_prob mother one_gene two_genes
    poppa_p * (1 - momma_p) + momma_p * (1 - poppa_p)
  | _, _ => PROBS_gene 1

/-- Embeds the body of the second loop of `joint_probability`: the probability
assigned to a name in `two_genes` (founder branch, else pf·pm). -/
def two_genes_prob (people : Population α) (one_gene two_genes : List α) (name : α) : ℚ :=
  match (people.info name).father, (people.info name).mother with
  | some father, some mother =>
    let poppa_p := person_prob father one_gene two_genes
    let momma_p := person_prob mother one_gene two_genes
    poppa_p * momma_p
  | _, _ => PROBS_gene 2

/-- Embeds the body of the third loop of `joint_probability`: the probability
assigned to a name with zero copies (founder branch, else (1−pf)(1−pm)). -/
def zero_gene_prob (people : Population α) (one_gene two_genes : List α) (name : α) : ℚ :=
  match (people.info name).father, (people.info name).mother with
  | some father, some mother =>
    let poppa_p := person_prob father one_gene two_genes
    let momma_p := person_prob mother one_gene two_genes
    (1 - poppa_p) * (1 - momma_p)
  | _, _ => PROBS_gene 0

/-- Embeds `trait_prob(prob_dict, num_copies, have_trait)`: multiplies, for
each (name, gene probability) pair, the gene probability by the trait table
entry for (num_copies, name ∈ have_trait). -/
def trait_prob (prob_dict : List (α × ℚ)) (num_copies : ℕ) (have_trait : List α) : ℚ :=
  prob_dict.foldl
    (fun product_ pr =>
      if pr.1 ∈ have_trait then product_ * (pr.2 * PROBS_trait num_copies true)
      else product_ * (pr.2 * PROBS_trait num_copies false))
    1

/-- Embeds `joint_probability(people, one_gene, two_genes, have_trait)`:
builds the three per-group gene-probability dictionaries and multiplies
`trait_prob` over them in the order zero, one, two. -/
def joint_probability (people : Population α) (one_gene two_genes have_trait : List α) : ℚ :=
  let zero_gene :=
    people.names.filter (fun name => !(decide (name ∈ one_gene)) && !(decide (name ∈ two_genes)))
  let one_gene_p := one_gene.map (fun name => (name, one_gene_prob people one_gene two_genes name))
  let two_genes_p :=
    two_genes.map (fun name => (name, two_genes_prob people one_gene two_genes name))
  let zero_gene_p :=
    zero_gene.map (fun name => (name, zero_gene_prob people one_gene two_genes name))
  ((1 * trait_prob zero_gene_p 0 have_trait) * trait_prob one_gene_p 1 have_trait) *
    trait_prob two_genes_p 2 have_trait

/-- One person's entry of the `probabilities` dictionary of `main`:
three gene-count accumulators and two trait accumulators. -/
structure PersonDist where
  gene0 : ℚ
  gene1 : ℚ
  gene2 : ℚ
  traitT : ℚ
  traitF : ℚ
deriving DecidableEq

/-- The zero-initialized per-person entry created at the start of `main`. -/
def initDist : PersonDist :=
  ⟨0, 0, 0, 0, 0⟩

/-- Embeds `get_dist_sum` applied to a person's `gene` dictionary
(keys 2, 1, 0 in dict order). -/
def geneSum (d : PersonDist) : ℚ :=
  d.gene2 + d.gene1 + d.gene0

/-- Embeds `get_dist_sum` applied to a person's `trait` dictionary
(keys True, False in dict order). -/
def traitSum (d : PersonDist) : ℚ :=
  d.traitT + d.traitF

/-- Embeds `update(probabilities, one_gene, two_genes, have_trait, p)`:
for every person, add `p` to the trait bucket selected by membership in
`have_trait` and to the gene bucket selected by membership in `one_gene`
then `two_genes` (else the zero bucket). -/
def update (probabilities : α → PersonDist) (one_gene two_genes have_trait : List α)
    (p : ℚ) : α → PersonDist :=
  fun person =>
    let d := probabilities person
    let d' :=
      if person ∈ have_trait then { d with traitT := d.traitT + p }
      else { d with traitF := d.traitF + p }
    if person ∈ one_gene then { d' with gene1 := d'.gene1 + p }
    else if person ∈ two_genes then { d' with gene2 := d'.gene2 + p }
    else { d' with gene0 := d'.gene0 + p }

/-- Embeds the body of `normalize` for one person: divide the gene entries by
their sum and the trait entries by their sum.  Python raises
`ZeroDivisionError` when a sum is zero (gene dictionary first); that fatal,
output-free termination is modelled by `none`. -/
def normalizeDist (d : PersonDist) : Option PersonDist :=
  if geneSum d = 0 then none
  else if traitSum d = 0 then none
  else some
    ⟨d.gene0 / geneSum d, d.gene1 / geneSum d, d.gene2 / geneSum d,
      d.traitT / traitSum d, d.traitF / traitSum d⟩

/-- Embeds `normalize(probabilities)`: normalize each person's entry in turn,
in place; a `ZeroDivisionError` (modelled by `none`) aborts with no output. -/
def normalize : List α → (α → PersonDist) → Option (α → PersonDist)
  | [], probabilities => some probabilities
  | person :: rest, probabilities =>
    match normalizeDist (probabilities person) with
    | none => none
    | some d => normalize rest (Function.update probabilities person d)

/-- Embeds the `fails_evidence` test of `main`: some person has an observed
trait value that disagrees with their membership in `have_trait`. -/
def fails_evidence (people : Population α) (have_trait : List α) : Bool :=
  people.names.any (fun person =>
    match (people.info person).trait with
    | none => false
    | some t => t != decide (person ∈ have_trait))

/-- Embeds the two inner loops of `main` for one surviving trait candidate:
for every `one_gene` subset and every `two_genes` subset of the remaining
names, score the scenario with `joint_probability` and accumulate via
`update`. -/
def score_trait_candidate (people : Population α) (have_trait : List α)
    (probabilities : α → PersonDist) : α → PersonDist :=
  (powerset people.names).foldl
    (fun probs one_gene =>
      (powerset (people.names.filter (fun n => !(decide (n ∈ one_gene))))).foldl
        (fun probs two_genes =>
          update probs one_gene two_genes have_trait
            (joint_probability people one_gene two_genes have_trait))
        probs)
    probabilities

/-- Embeds the enumeration loop of `main`: over every trait candidate, skip
it if it fails evidence, otherwise score it; start from the zero table. -/
def run_enumeration (people : Population α) : α → PersonDist :=
  (powerset people.names).foldl
    (fun probabilities have_trait =>
      if fails_evidence people have_trait then probabilities
      else score_trait_candidate people have_trait probabilities)
    (fun _ => initDist)

/-- The (one_gene, two_genes) pairs of the two inner loops of `main`, tagged
with the trait candidate they are scored under. -/
def trait_candidate_triples (people : Population α) (have_trait : List α) :
    List (List α × List α × List α) :=
  (powerset people.names).flatMap (fun one_gene =>
    (powerset (people.names.filter (fun n => !(decide (n ∈ one_gene))))).map
      (fun two_genes => (one_gene, two_genes, have_trait)))

/-- The (one_gene, two_genes, have_trait) triples at which the enumeration
loop of `main` invokes `joint_probability`, in order. -/
def scored_triples (people : Population α) : List (List α × List α × List α) :=
  (powerset people.names).foldl
    (fun acc have_trait =>
      if fails_evidence people have_trait then acc
      else acc ++ trait_candidate_triples people have_trait)
    []

/-- The enumeration restricted to the trait candidates that survive the
evidence filter; used to state that filtered candidates contribute nothing. -/
def enumerate_surviving (people : Population α) : α → PersonDist :=
  ((powerset people.names).filter (fun ht => !(fails_evidence people ht))).foldl
    (fun probs ht => score_trait_candidate people ht probs)
    (fun _ => initDist)

/-- Arguments of one call to `update` made by the enumeration loop. -/
structure UpdateCall (α : Type) where
  one_gene : List α
  two_genes : List α
  have_trait : List α
  p : ℚ

/-- Apply a sequence of `update` calls to a probabilities table. -/
def applyUpdates (calls : List (UpdateCall α)) (probabilities : α → PersonDist) :
    α → PersonDist :=
  calls.foldl (fun probs c => update probs c.one_gene c.two_genes c.have_trait c.p)
    probabilities

/-- The total weight added by a sequence of `update` calls. -/
def totalMass (calls : List (UpdateCall α)) : ℚ :=
  (calls.map (fun c => c.p)).sum

/-- The gene count a scenario assigns to a name: 1 if in `one_gene`, else 2
if in `two_genes`, else 0, matching the membership tests of `update`. -/
def assigned_genes (one_gene two_genes : List α) (name : α) : ℕ :=
  if name ∈ one_gene then 1 else if name ∈ two_genes then 2 else 0

/-- Modelled from the spec: one person's gene-count probability in a
scenario.  A person with both parents recorded uses the transmission
probabilities pf, pm of the parents ((1−pf)(1−pm) for 0 copies,
pf(1−pm) + pm(1−pf) for 1 copy, pf·pm for 2 copies); a founder (no recorded
parents — under the data-model invariant, parents are both recorded or
neither is) uses the fixed prior at the assigned gene count. -/
def spec_gene_prob (people : Population α) (one_gene two_genes : List α) (name : α) : ℚ :=
  match (people.info name).father, (people.info name).mother with
  | some father, some mother =>
    let pf := person_prob father one_gene two_genes
    let pm := person_prob mother one_gene two_genes
    match assigned_genes one_gene two_genes name with
    | 1 => pf * (1 - pm) + pm * (1 - pf)
    | 2 => pf * pm
    | _ => (1 - pf) * (1 - pm)
  | _, _ => PROBS_gene (assigned_genes one_gene two_genes name)

/-- Modelled from the spec: the joint probability of a scenario as the
product, over every person, of their gene-count probability and the trait
table entry at their assigned gene count and trait value. -/
def spec_joint_probability (people : Population α)
    (one_gene two_genes have_trait : List α) : ℚ :=
  (people.names.map (fun name =>
    spec_gene_prob people one_gene two_genes name *
      PROBS_trait (assigned_genes one_gene two_genes name)
        (decide (name ∈ have_trait)))).prod

/-- The (one_gene, two_genes) pairs iterated by the two inner loops of
`main` for one trait candidate. -/
def gene_pairs (names : List α) : List (List α × List α) :=
  (powerset names).flatMap (fun one_gene =>
    (powerset (names.filter (fun n => !(decide (n ∈ one_gene))))).map
      (fun two_genes => (one_gene, two_genes)))

/-- The full (one_gene, two_genes, have_trait) combination space of the
enumeration: every gene pair for every trait candidate. -/
def all_combinations (names : List α) : List (List α × List α × List α) :=
  (powerset names).flatMap (fun have_trait =>
    (gene_pairs names).map (fun pr => (pr.1, pr.2, have_trait)))

/-- The value `normalize` stores for one person when no sum is zero: each
entry divided by its own distribution's sum. -/
def normalized_value (d : PersonDist) : PersonDist :=
  ⟨d.gene0 / geneSum d, d.gene1 / geneSum d, d.gene2 / geneSum d,
    d.traitT / traitSum d, d.traitF / traitSum d⟩

/-- The prior-weighted mixture Σ_g P(g)·P(trait = t | g) of the trait table. -/
def trait_mixture (t : Bool) : ℚ :=
  PROBS_gene 0 * PROBS_trait 0 t + PROBS_gene 1 * PROBS_trait 1 t +
    PROBS_gene 2 * PROBS_trait 2 t

/-- Example population: a single founder with no observed trait. -/
def harry_pop : Population String :=
  ⟨["Harry"], fun _ => ⟨none, none, none⟩⟩

/-- Example population: a child with only a mother recorded (a state outside
the loader's both-or-neither invariant). -/
def half_orphan_pop : Population String :=
  ⟨["kid", "mom"], fun n => if n = "kid" then ⟨some ("mom"), none, none⟩ else ⟨none, none, none⟩⟩

/-- Example population: two founders and their child, nobody observed. -/
def trio_pop : Population String :=
  ⟨["mom", "dad", "kid"],
    fun n => if n = "kid" then ⟨some ("mom"), some ("dad"), none⟩ else ⟨none, none, none⟩⟩

/-- Example population: two founders and their child, the child observed to
have the trait. -/
def trio_obs_pop : Population String :=
  ⟨["mom", "dad", "kid"],
    fun n => if n = "kid" then ⟨some ("mom"), some ("dad"), some true⟩ else ⟨none, none, none⟩⟩

lemma update_geneSum (probabilities : α → PersonDist) (one_gene two_genes have_trait : List α)
    (p : ℚ) (n : α) :
    geneSum (update probabilities one_gene two_genes have_trait p n) =
      geneSum (probabilities n) + p := by
  by_cases h1 : n ∈ have_trait <;> by_cases h2 : n ∈ one_gene <;>
    by_cases h3 : n ∈ two_genes <;>
    simp [update, geneSum, h1, h2, h3] <;> ring

lemma update_traitSum (probabilities : α → PersonDist) (one_gene two_genes have_trait : List α)
    (p : ℚ) (n : α) :
    traitSum (update probabilities one_gene two_genes have_trait p n) =
      traitSum (probabilities n) + p := by
  by_cases h1 : n ∈ have_trait <;> by_cases h2 : n ∈ one_gene <;>
    by_cases h3 : n ∈ two_genes <;>
    simp [update, traitSum, h1, h2, h3] <;> ring

lemma applyUpdates_geneSum (calls : List (UpdateCall α)) (probabilities : α → PersonDist)
    (n : α) :
    geneSum (applyUpdates calls probabilities n) = geneSum (probabilities n) + totalMass calls := by
  induction calls generalizing probabilities with
  | nil => simp [applyUpdates, totalMass]
  | cons c cs ih =>
    simp only [applyUpdates, List.foldl_cons, totalMass, List.map_cons, List.sum_cons]
    rw [show (cs.foldl (fun probs c => update probs c.one_gene c.two_genes c.have_trait c.p)
      (update probabilities c.one_gene c.two_genes c.have_trait c.p)) =
        applyUpdates cs (update probabilities c.one_gene c.two_genes c.have_trait c.p) from rfl]
    rw [ih, update_geneSum, totalMass]
    ring

lemma applyUpdates_traitSum (calls : List (UpdateCall α)) (probabilities : α → PersonDist)
    (n : α) :
    traitSum (applyUpdates calls probabilities n) =
      traitSum (probabilities n) + totalMass calls := by
  induction calls generalizing probabilities with
  | nil => simp [applyUpdates, totalMass]
  | cons c cs ih =>
    simp only [applyUpdates, List.foldl_cons, totalMass, List.map_cons, List.sum_cons]
    rw [show (cs.foldl (fun probs c => update probs c.one_gene c.two_genes c.have_trait c.p)
      (update probabilities c.one_gene c.two_genes c.have_trait c.p)) =
        applyUpdates cs (update probabilities c.one_gene c.two_genes c.have_trait c.p) from rfl]
    rw [ih, update_traitSum, totalMass]
    ring

/-- C2: `person_prob` returns exactly 1 − m = 0.99 for a parent in the
two-copies set, 0.5 × (1 − m) = 0.495 for a parent in the one-copy set, and
m = 0.01 otherwise, where m = PROBS["mutation"] = 0.01. -/
theorem person_prob_transmission (name : α) (one_gene two_genes : List α) :
    person_prob name one_gene two_genes =
      (if name ∈ two_genes then 1 - PROBS_mutation
        else if name ∈ one_gene then (1/2) * (1 - PROBS_mutation)
        else PROBS_mutation) ∧
    1 - PROBS_mutation = 99/100 ∧
    (1/2) * (1 - PROBS_mutation) = 495/1000 ∧
    PROBS_mutation = 1/100 := by
  refine ⟨?_, by norm_num [PROBS_mutation], by norm_num [PROBS_mutation], rfl⟩
  by_cases h2 : name ∈ two_genes <;> by_cases h1 : name ∈ one_gene <;>
    simp [person_prob, PROBS_mutation, h1, h2] <;> norm_num

/-- C9: each `update` call adds its weight to exactly one gene bucket and
one trait bucket of every person, so after any sequence of updates starting
from the zero table every person's gene accumulators and trait accumulators
both sum to the total accumulated mass, the same for all persons. -/
theorem update_mass_conservation (calls : List (UpdateCall α)) (n m : α)
    (probabilities : α → PersonDist) (one_gene two_genes have_trait : List α) (p : ℚ) :
    geneSum (update probabilities one_gene two_genes have_trait p n) =
      geneSum (probabilities n) + p ∧
    traitSum (update probabilities one_gene two_genes have_trait p n) =
      traitSum (probabilities n) + p ∧
    geneSum (applyUpdates calls (fun _ => initDist) n) = totalMass calls ∧
    traitSum (applyUpdates calls (fun _ => initDist) n) = totalMass calls ∧
    geneSum (applyUpdates calls (fun _ => initDist) n) =
      geneSum (applyUpdates calls (fun _ => initDist) m) := by
  refine ⟨update_geneSum _ _ _ _ _ _, update_traitSum _ _ _ _ _ _, ?_, ?_, ?_⟩
  · rw [applyUpdates_geneSum]; simp [geneSum, initDist]
  · rw [applyUpdates_traitSum]; simp [traitSum, initDist]
  · rw [applyUpdates_geneSum, applyUpdates_geneSum]

/-- C10: a person with exactly one recorded parent takes the founder branch
of every gene-count loop of `joint_probability`: each loop assigns them the
prior at the assigned count, ignoring the recorded parent's assignment. -/
theorem one_parent_treated_as_founder (people : Population α) (name : α) (f m : α)
    (one_gene two_genes : List α)
    (h : ((people.info name).father = some f ∧ (people.info name).mother = none) ∨
      ((people.info name).father = none ∧ (people.info name).mother = some m)) :
    one_gene_prob people one_gene two_genes name = PROBS_gene 1 ∧
    two_genes_prob people one_gene two_genes name = PROBS_gene 2 ∧
    zero_gene_prob people one_gene two_genes name = PROBS_gene 0 := by
  rcases h with ⟨hf, hm⟩ | ⟨hf, hm⟩ <;>
    refine ⟨?_, ?_, ?_⟩ <;>
    simp [one_gene_prob, two_genes_prob, zero_gene_prob, hf, hm]

/-- Witness for C10: in `half_orphan_pop` the child `kid` has a mother but
no father and is assigned the founder priors by all three loops. -/
theorem one_parent_treated_as_founder_witness :
    one_gene_prob half_orphan_pop ["kid"] [] "kid" = PROBS_gene 1 ∧
    two_genes_prob half_orphan_pop ["kid"] [] "kid" = PROBS_gene 2 ∧
    zero_gene_prob half_orphan_pop ["kid"] [] "kid" = PROBS_gene 0 :=
  one_parent_treated_as_founder half_orphan_pop ("kid") ("x") ("mom") ["kid"] []
    (Or.inr ⟨by decide, by decide⟩)

lemma foldl_if_skip {β γ : Type} (p : γ → Bool) (g : β → γ → β) (l : List γ) (init : β) :
    l.foldl (fun acc x => if p x then acc else g acc x) init =
      (l.filter (fun x => !(p x))).foldl g init := by
  induction l generalizing init with
  | nil => rfl
  | cons x xs ih =>
    by_cases hx : p x = true
    · simp only [List.foldl_cons, List.filter_cons, hx, if_pos hx, Bool.not_true,
        Bool.false_eq_true, if_false]
      exact ih init
    · simp only [List.foldl_cons, List.filter_cons, hx, if_neg hx, Bool.not_eq_true'] at *
      simp only [hx, Bool.not_false, if_true, List.foldl_cons]
      exact ih (g init x)

lemma foldl_append_eq {γ δ : Type} (f : γ → List δ) (l : List γ) (acc : List δ) :
    l.foldl (fun acc x => acc ++ f x) acc = acc ++ l.flatMap f := by
  induction l generalizing acc with
  | nil => simp
  | cons x xs ih => simp [List.flatMap_cons, ih]

lemma scored_triples_eq (people : Population α) :
    scored_triples people =
      ((powerset people.names).filter (fun ht => !(fails_evidence people ht))).flatMap
        (trait_candidate_triples people) := by
  unfold scored_triples
  rw [foldl_if_skip (fails_evidence people)
    (fun acc ht => acc ++ trait_candidate_triples people ht) (powerset people.names) []]
  rw [foldl_append_eq]
  rfl

lemma mem_trait_candidate_triples (people : Population α) (have_trait : List α)
    (tr : List α × List α × List α) (h : tr ∈ trait_candidate_triples people have_trait) :
    tr.2.2 = have_trait := by
  simp only [trait_candidate_triples, List.mem_flatMap, List.mem_map] at h
  obtain ⟨one_gene, _, two_genes, _, rfl⟩ := h
  rfl

/-- C3: trait candidates contradicting an observed trait value are a hard
filter: every triple actually scored has a surviving trait candidate, the
accumulated table equals the fold over only the surviving candidates (failing
candidates contribute zero mass), and when nobody is observed no candidate
is filtered. -/
theorem evidence_hard_filter (people : Population α)
    (one_gene two_genes have_trait ht2 : List α)
    (hmem : (one_gene, two_genes, have_trait) ∈ scored_triples people) :
    fails_evidence people have_trait = false ∧
    run_enumeration people = enumerate_surviving people ∧
    (people.names.all (fun n => ((people.info n).trait).isNone) = true →
      fails_evidence people ht2 = false) := by
  refine ⟨?_, ?_, ?_⟩
  · rw [scored_triples_eq] at hmem
    obtain ⟨ht, hht, htr⟩ := List.mem_flatMap.mp hmem
    have h2 := mem_trait_candidate_triples people ht _ htr
    simp only at h2
    subst h2
    have := List.of_mem_filter hht
    simpa using this
  · unfold run_enumeration enumerate_surviving
    exact foldl_if_skip (fails_evidence people)
      (fun probs ht => score_trait_candidate people ht probs) (powerset people.names)
      (fun _ => initDist)
  · intro hall
    by_contra hne
    have htrue : fails_evidence people ht2 = true := by
      cases hfe : fails_evidence people ht2
      · exact absurd hfe hne
      · rfl
    obtain ⟨person, hp, hmatch⟩ := List.any_eq_true.mp htrue
    have hnone : (people.info person).trait = none :=
      Option.isNone_iff_eq_none.mp (List.all_eq_true.mp hall person hp)
    rw [hnone] at hmatch
    simp at hmatch

/-- Witness for C3 at `harry_pop`: the empty-trait candidate is scored, the
enumeration equals its evidence-filtered form, and with nobody observed the
singleton candidate also survives. -/
theorem evidence_hard_filter_witness :
    fails_evidence harry_pop [] = false ∧
    run_enumeration harry_pop = enumerate_surviving harry_pop ∧
    (harry_pop.names.all (fun n => ((harry_pop.info n).trait).isNone) = true →
      fails_evidence harry_pop ["Harry"] = false) :=
  evidence_hard_filter harry_pop [] [] [] ["Harry"] (by decide)

lemma normalize_cons_step (x : α) (xs : List α) (probs : α → PersonDist)
    (hg : geneSum (probs x) ≠ 0) (ht : traitSum (probs x) ≠ 0) :
    normalize (x :: xs) probs =
      normalize xs (Function.update probs x (normalized_value (probs x))) := by
  simp only [normalize, normalizeDist, if_neg hg, if_neg ht, normalized_value]

lemma normalized_value_sums (d : PersonDist) (hg : geneSum d ≠ 0) (ht : traitSum d ≠ 0) :
    geneSum (normalized_value d) = 1 ∧ traitSum (normalized_value d) = 1 := by
  constructor
  · show d.gene2 / geneSum d + d.gene1 / geneSum d + d.gene0 / geneSum d = 1
    rw [div_add_div_same, div_add_div_same]
    exact div_self hg
  · show d.traitT / traitSum d + d.traitF / traitSum d = 1
    rw [div_add_div_same]
    exact div_self ht

lemma normalize_some (names : List α) (probs : α → PersonDist) (hnd : names.Nodup)
    (h : ∀ x ∈ names, geneSum (probs x) ≠ 0 ∧ traitSum (probs x) ≠ 0) :
    ∃ out, normalize names probs = some out ∧
      (∀ x ∈ names, out x = normalized_value (probs x)) ∧
      (∀ x, x ∉ names → out x = probs x) := by
  induction names generalizing probs with
  | nil => exact ⟨probs, rfl, by simp, fun x _ => rfl⟩
  | cons x xs ih =>
    obtain ⟨hxnotin, hxs⟩ := List.nodup_cons.mp hnd
    obtain ⟨hg, ht⟩ := h x (List.mem_cons_self x xs)
    rw [normalize_cons_step x xs probs hg ht]
    have hrest : ∀ y ∈ xs,
        geneSum (Function.update probs x (normalized_value (probs x)) y) ≠ 0 ∧
        traitSum (Function.update probs x (normalized_value (probs x)) y) ≠ 0 := by
      intro y hy
      have hyx : y ≠ x := fun hyx => hxnotin (hyx ▸ hy)
      rw [Function.update_noteq hyx]
      exact h y (List.mem_cons_of_mem x hy)
    obtain ⟨out, hout, hmem, hnomem⟩ := ih _ hxs hrest
    refine ⟨out, hout, ?_, ?_⟩
    · intro y hy
      rcases List.mem_cons.mp hy with rfl | hy'
      · rw [hnomem y hxnotin, Function.update_same]
      · have hyx : y ≠ x := fun hyx => hxnotin (hyx ▸ hy')
        rw [hmem y hy', Function.update_noteq hyx]
    · intro y hy
      have hyx : y ≠ x := fun hyx => hy (hyx ▸ List.mem_cons_self x xs)
      have hyxs : y ∉ xs := fun hy' => hy (List.mem_cons_of_mem x hy')
      rw [hnomem y hyxs, Function.update_noteq hyx]

lemma normalize_of_normalized (names : List α) (probs : α → PersonDist)
    (h : ∀ x ∈ names, geneSum (probs x) = 1 ∧ traitSum (probs x) = 1) :
    normalize names probs = some probs := by
  induction names with
  | nil => rfl
  | cons x xs ih =>
    obtain ⟨hg, ht⟩ := h x (List.mem_cons_self x xs)
    have hg' : geneSum (probs x) ≠ 0 := by rw [hg]; norm_num
    have ht' : traitSum (probs x) ≠ 0 := by rw [ht]; norm_num
    rw [normalize_cons_step x xs probs hg' ht']
    have hval : normalized_value (probs x) = probs x := by
      show (⟨(probs x).gene0 / geneSum (probs x), (probs x).gene1 / geneSum (probs x),
        (probs x).gene2 / geneSum (probs x), (probs x).traitT / traitSum (probs x),
        (probs x).traitF / traitSum (probs x)⟩ : PersonDist) = probs x
      rw [hg, ht]
      simp
    rw [hval, Function.update_eq_self]
    exact ih (fun y hy => h y (List.mem_cons_of_mem x hy))

/-- C5: when every pre-division sum is nonzero, `normalize` succeeds and
stores, for each person, each entry divided by its own distribution's sum;
afterwards both distributions sum to 1 and the entries are the original
ones rescaled by the sums (relative proportions unchanged). -/
theorem normalize_divides_by_sums (names : List α) (probs : α → PersonDist) (n : α)
    (hnd : names.Nodup)
    (h : ∀ x ∈ names, geneSum (probs x) ≠ 0 ∧ traitSum (probs x) ≠ 0)
    (hn : n ∈ names) :
    (normalize names probs).map (fun out => out n) = some (normalized_value (probs n)) ∧
    geneSum (normalized_value (probs n)) = 1 ∧
    traitSum (normalized_value (probs n)) = 1 ∧
    (normalized_value (probs n)).gene0 * geneSum (probs n) = (probs n).gene0 ∧
    (normalized_value (probs n)).gene1 * geneSum (probs n) = (probs n).gene1 ∧
    (normalized_value (probs n)).gene2 * geneSum (probs n) = (probs n).gene2 ∧
    (normalized_value (probs n)).traitT * traitSum (probs n) = (probs n).traitT ∧
    (normalized_value (probs n)).traitF * traitSum (probs n) = (probs n).traitF := by
  obtain ⟨hg, ht⟩ := h n hn
  obtain ⟨out, hout, hmem, _⟩ := normalize_some names probs hnd h
  obtain ⟨hg1, ht1⟩ := normalized_value_sums (probs n) hg ht
  refine ⟨?_, hg1, ht1, ?_, ?_, ?_, ?_, ?_⟩
  · rw [hout, Option.map_some', hmem n hn]
  · exact div_mul_cancel₀ _ hg
  · exact div_mul_cancel₀ _ hg
  · exact div_mul_cancel₀ _ hg
  · exact div_mul_cancel₀ _ ht
  · exact div_mul_cancel₀ _ ht

/-- Witness for C5 at a one-person table with sums 4 and 4. -/
theorem normalize_divides_by_sums_witness :
    (normalize ["a"] (fun _ => (⟨1, 1, 2, 3, 1⟩ : PersonDist))).map (fun out => out ("a")) =
      some (normalized_value ⟨1, 1, 2, 3, 1⟩) ∧
    geneSum (normalized_value (⟨1, 1, 2, 3, 1⟩ : PersonDist)) = 1 ∧
    traitSum (normalized_value (⟨1, 1, 2, 3, 1⟩ : PersonDist)) = 1 ∧
    (normalized_value (⟨1, 1, 2, 3, 1⟩ : PersonDist)).gene0 *
      geneSum (⟨1, 1, 2, 3, 1⟩ : PersonDist) = (1 : ℚ) ∧
    (normalized_value (⟨1, 1, 2, 3, 1⟩ : PersonDist)).gene1 *
      geneSum (⟨1, 1, 2, 3, 1⟩ : PersonDist) = (1 : ℚ) ∧
    (normalized_value (⟨1, 1, 2, 3, 1⟩ : PersonDist)).gene2 *
      geneSum (⟨1, 1, 2, 3, 1⟩ : PersonDist) = (2 : ℚ) ∧
    (normalized_value (⟨1, 1, 2, 3, 1⟩ : PersonDist)).traitT *
      traitSum (⟨1, 1, 2, 3, 1⟩ : PersonDist) = (3 : ℚ) ∧
    (normalized_value (⟨1, 1, 2, 3, 1⟩ : PersonDist)).traitF *
      traitSum (⟨1, 1, 2, 3, 1⟩ : PersonDist) = (1 : ℚ) :=
  normalize_divides_by_sums ["a"] (fun _ => ⟨1, 1, 2, 3, 1⟩) "a" (by decide)
    (by
      intro x hx
      exact ⟨by norm_num [geneSum], by norm_num [traitSum]⟩)
    (by decide)

/-- C6: a zero accumulated sum is fatal: `normalize` hits the Python
`ZeroDivisionError` (modelled by `none`) and produces no output table, never
a silent all-zero or NaN-like distribution. -/
theorem normalize_zero_sum_fatal (names : List α) (probs : α → PersonDist) (n : α)
    (hnd : names.Nodup) (hn : n ∈ names)
    (h : geneSum (probs n) = 0 ∨ traitSum (probs n) = 0) :
    normalize names probs = none := by
  induction names generalizing probs with
  | nil => cases hn
  | cons x xs ih =>
    obtain ⟨hxnotin, hxs⟩ := List.nodup_cons.mp hnd
    rcases List.mem_cons.mp hn with rfl | hn'
    · by_cases hg : geneSum (probs n) = 0
      · simp [normalize, normalizeDist, hg]
      · have ht : traitSum (probs n) = 0 := by
          rcases h with h | h
          · exact absurd h hg
          · exact h
        simp [normalize, normalizeDist, hg, ht]
    · have hnx : n ≠ x := fun hnx => hxnotin (hnx ▸ hn')
      by_cases hg : geneSum (probs x) = 0
      · simp [normalize, normalizeDist, hg]
      · by_cases htr : traitSum (probs x) = 0
        · simp [normalize, normalizeDist, hg, htr]
        · rw [normalize_cons_step x xs probs hg htr]
          refine ih _ hxs hn' ?_
          rw [Function.update_noteq hnx]
          exact h

/-- Witness for C6: the all-zero table of one person is rejected with no
output. -/
theorem normalize_zero_sum_fatal_witness :
    normalize ["P"] (fun _ => initDist) = (none : Option (String → PersonDist)) :=
  normalize_zero_sum_fatal ["P"] (fun _ => initDist) "P" (by decide) (by decide)
    (Or.inl (by norm_num [geneSum, initDist]))

/-- C8: `normalize` is idempotent once it applies: with nonzero sums,
applying it a second time to its own output changes nothing, and a table
whose distributions already sum to 1 is returned unchanged. -/
theorem normalize_idempotent (names : List α) (probs : α → PersonDist)
    (hnd : names.Nodup)
    (h : ∀ x ∈ names, geneSum (probs x) ≠ 0 ∧ traitSum (probs x) ≠ 0) :
    (normalize names probs).bind (normalize names) = normalize names probs ∧
    ((∀ x ∈ names, geneSum (probs x) = 1 ∧ traitSum (probs x) = 1) →
      normalize names probs = some probs) := by
  constructor
  · obtain ⟨out, hout, hmem, _⟩ := normalize_some names probs hnd h
    rw [hout, Option.some_bind]
    apply normalize_of_normalized
    intro x hx
    obtain ⟨hg, ht⟩ := h x hx
    rw [hmem x hx]
    exact normalized_value_sums (probs x) hg ht
  · exact normalize_of_normalized names probs

/-- Witness for C8 at a one-person table that is already normalized. -/
theorem normalize_idempotent_witness :
    (normalize ["a"] (fun _ => (⟨1/2, 1/4, 1/4, 1/2, 1/2⟩ : PersonDist))).bind
        (normalize ["a"]) =
      normalize ["a"] (fun _ => (⟨1/2, 1/4, 1/4, 1/2, 1/2⟩ : PersonDist)) ∧
    ((∀ x ∈ ["a"], geneSum ((fun _ => (⟨1/2, 1/4, 1/4, 1/2, 1/2⟩ : PersonDist)) x) = 1 ∧
        traitSum ((fun _ => (⟨1/2, 1/4, 1/4, 1/2, 1/2⟩ : PersonDist)) x) = 1) →
      normalize ["a"] (fun _ => (⟨1/2, 1/4, 1/4, 1/2, 1/2⟩ : PersonDist)) =
        some (fun _ => (⟨1/2, 1/4, 1/4, 1/2, 1/2⟩ : PersonDist))) :=
  normalize_idempotent ["a"] (fun _ => ⟨1/2, 1/4, 1/4, 1/2, 1/2⟩) (by decide)
    (by
      intro x hx
      exact ⟨by norm_num [geneSum], by norm_num [traitSum]⟩)

lemma length_flatMap {γ δ : Type} (l : List γ) (f : γ → List δ) :
    (l.flatMap f).length = (l.map (fun a => (f a).length)).sum := by
  induction l with
  | nil => rfl
  | cons x xs ih => simp [List.flatMap_cons, ih]

lemma filter_mem_sublist {l names : List α} (h : List.Sublist l names) (hnd : names.Nodup) :
    names.filter (fun x => decide (x ∈ l)) = l := by
  induction h with
  | slnil => rfl
  | @cons l₁ l₂ a h ih =>
    obtain ⟨ha, hnd₂⟩ := List.nodup_cons.mp hnd
    have hal : a ∉ l₁ := fun hal => ha (h.subset hal)
    simp only [List.filter_cons, hal, decide_eq_true_eq, if_neg hal]
    exact ih hnd₂
  | @cons₂ l₁ l₂ a h ih =>
    obtain ⟨ha, hnd₂⟩ := List.nodup_cons.mp hnd
    have hhead : decide (a ∈ a :: l₁) = true := by simp
    simp only [List.filter_cons, hhead, if_pos]
    have hcongr : l₂.filter (fun x => decide (x ∈ a :: l₁)) =
        l₂.filter (fun x => decide (x ∈ l₁)) := by
      apply List.filter_congr
      intro x hx
      have hxa : x ≠ a := fun hxa => ha (hxa ▸ hx)
      simp [List.mem_cons, hxa]
    rw [hcongr, ih hnd₂]

lemma filter_not_mem_length {one names : List α} (h : List.Sublist one names)
    (hnd : names.Nodup) :
    (names.filter (fun n => !(decide (n ∈ one)))).length = names.length - one.length := by
  have hperm := List.filter_append_perm (fun n => decide (n ∈ one)) names
  have hlen := hperm.length_eq
  rw [List.length_append, filter_mem_sublist h hnd] at hlen
  omega

lemma sublists'_sum_pow (names : List α) :
    ((names.sublists').map (fun one => 2 ^ (names.length - one.length))).sum =
      3 ^ names.length := by
  induction names with
  | nil => rfl
  | cons x xs ih =>
    rw [List.sublists'_cons, List.map_append, List.sum_append, List.map_map]
    have h1 : ((xs.sublists').map (fun one => 2 ^ ((x :: xs).length - one.length))).sum =
        2 * ((xs.sublists').map (fun one => 2 ^ (xs.length - one.length))).sum := by
      rw [← List.sum_map_mul_left]
      apply congrArg
      apply List.map_congr_left
      intro one hone
      have hle : one.length ≤ xs.length := (List.mem_sublists'.mp hone).length_le
      have : (x :: xs).length - one.length = (xs.length - one.length) + 1 := by
        simp only [List.length_cons]
        omega
      rw [this, pow_succ]
      ring
    have h2 : ((xs.sublists').map
          ((fun one => 2 ^ ((x :: xs).length - one.length)) ∘ (x :: ·))).sum =
        ((xs.sublists').map (fun one => 2 ^ (xs.length - one.length))).sum := by
      apply congrArg
      apply List.map_congr_left
      intro one _
      simp only [Function.comp, List.length_cons]
      rw [Nat.succ_sub_succ]
    rw [h1, h2, ih, List.length_cons, pow_succ]
    ring

/-- C4: the enumeration's candidate spaces have the claimed sizes: every
subset of the names is a trait candidate, there are 2^n of them, the inner
loops range over exactly 3^n (one_gene, two_genes) pairs, and the full
combination space has 2^n × 3^n = 6^n elements. -/
theorem enumeration_counts (names s : List α) (hnd : names.Nodup)
    (hs : List.Sublist s names) :
    s ∈ powerset names ∧
    (powerset names).length = 2 ^ names.length ∧
    (gene_pairs names).length = 3 ^ names.length ∧
    (all_combinations names).length = 2 ^ names.length * 3 ^ names.length ∧
    2 ^ names.length * 3 ^ names.length = 6 ^ names.length := by
  have hpow : (powerset names).length = 2 ^ names.length := List.length_sublists' names
  have hpairs : (gene_pairs names).length = 3 ^ names.length := by
    unfold gene_pairs
    rw [length_flatMap]
    have hcongr : (powerset names).map (fun one =>
          ((powerset (names.filter (fun n => !(decide (n ∈ one))))).map
            (fun two => (one, two))).length) =
        (powerset names).map (fun one => 2 ^ (names.length - one.length)) := by
      apply List.map_congr_left
      intro one hone
      have hsub : List.Sublist one names := List.mem_sublists'.mp hone
      rw [List.length_map]
      show (List.sublists' _).length = _
      rw [List.length_sublists', filter_not_mem_length hsub hnd]
    rw [hcongr]
    exact sublists'_sum_pow names
  refine ⟨List.mem_sublists'.mpr hs, hpow, hpairs, ?_, ?_⟩
  · unfold all_combinations
    rw [length_flatMap]
    have hconst : (powerset names).map (fun ht =>
          ((gene_pairs names).map (fun pr => (pr.1, pr.2, ht))).length) =
        (powerset names).map (fun _ => 3 ^ names.length) := by
      apply List.map_congr_left
      intro ht _
      rw [List.length_map, hpairs]
    rw [hconst]
    have : ((powerset names).map (fun _ => 3 ^ names.length)).sum =
        (powerset names).length * 3 ^ names.length := by
      induction (powerset names) with
      | nil => simp
      | cons y ys ihy => simp [ihy, Nat.succ_mul]; ring
    rw [this, hpow]
  · rw [← Nat.mul_pow]

lemma trait_prob_go (prob_dict : List (α × ℚ)) (num_copies : ℕ) (have_trait : List α)
    (a : ℚ) :
    prob_dict.foldl (fun product_ pr =>
        if pr.1 ∈ have_trait then product_ * (pr.2 * PROBS_trait num_copies true)
        else product_ * (pr.2 * PROBS_trait num_copies false)) a =
      a * (prob_dict.map (fun pr =>
        pr.2 * PROBS_trait num_copies (decide (pr.1 ∈ have_trait)))).prod := by
  induction prob_dict generalizing a with
  | nil => simp
  | cons x xs ih =>
    simp only [List.foldl_cons, List.map_cons, List.prod_cons]
    by_cases hx : x.1 ∈ have_trait
    · rw [if_pos hx, ih]
      simp [hx]
      ring
    · rw [if_neg hx, ih]
      simp [hx]
      ring

lemma trait_prob_eq_prod (prob_dict : List (α × ℚ)) (num_copies : ℕ) (have_trait : List α) :
    trait_prob prob_dict num_copies have_trait =
      (prob_dict.map (fun pr =>
        pr.2 * PROBS_trait num_copies (decide (pr.1 ∈ have_trait)))).prod := by
  unfold trait_prob
  rw [trait_prob_go, one_mul]

lemma map_pair_prod (l : List α) (g : α → ℚ) (num_copies : ℕ) (ht : List α) :
    trait_prob (l.map (fun name => (name, g name))) num_copies ht =
      (l.map (fun name => g name * PROBS_trait num_copies (decide (name ∈ ht)))).prod := by
  rw [trait_prob_eq_prod, List.map_map]
  rfl

lemma prod_split (p : α → Bool) (f : α → ℚ) (l : List α) :
    (l.map f).prod =
      ((l.filter p).map f).prod * ((l.filter (fun x => !(p x))).map f).prod := by
  induction l with
  | nil => simp
  | cons x xs ih =>
    cases hx : p x <;> simp [List.filter_cons, hx, ih] <;> ring

lemma spec_gene_prob_of_one (people : Population α) (one_gene two_genes : List α) (n : α)
    (h : n ∈ one_gene) :
    spec_gene_prob people one_gene two_genes n =
      one_gene_prob people one_gene two_genes n := by
  have ha : assigned_genes one_gene two_genes n = 1 := by simp [assigned_genes, h]
  unfold spec_gene_prob one_gene_prob
  rw [ha]

lemma spec_gene_prob_of_two (people : Population α) (one_gene two_genes : List α) (n : α)
    (h1 : n ∉ one_gene) (h2 : n ∈ two_genes) :
    spec_gene_prob people one_gene two_genes n =
      two_genes_prob people one_gene two_genes n := by
  have ha : assigned_genes one_gene two_genes n = 2 := by simp [assigned_genes, h1, h2]
  unfold spec_gene_prob two_genes_prob
  rw [ha]

lemma spec_gene_prob_of_zero (people : Population α) (one_gene two_genes : List α) (n : α)
    (h1 : n ∉ one_gene) (h2 : n ∉ two_genes) :
    spec_gene_prob people one_gene two_genes n =
      zero_gene_prob people one_gene two_genes n := by
  have ha : assigned_genes one_gene two_genes n = 0 := by simp [assigned_genes, h1, h2]
  unfold spec_gene_prob zero_gene_prob
  rw [ha]

/-- C1: `joint_probability` computes exactly the spec's product over every
person of a gene-count probability (parent transmission formula for persons
with both parents, prior for founders) and the trait table entry at the
person's assigned gene count and trait value, for every scenario the
enumeration generates (one_gene a subset of the names, two_genes a subset of
the remaining names). -/
theorem joint_probability_eq_spec (people : Population α)
    (one_gene two_genes have_trait : List α) (hnd : people.names.Nodup)
    (h1 : List.Sublist one_gene people.names)
    (h2 : List.Sublist two_genes
      (people.names.filter (fun n => !(decide (n ∈ one_gene))))) :
    joint_probability people one_gene two_genes have_trait =
      spec_joint_probability people one_gene two_genes have_trait := by
  have hjoint : joint_probability people one_gene two_genes have_trait =
      ((1 * trait_prob ((people.names.filter (fun name =>
            !(decide (name ∈ one_gene)) && !(decide (name ∈ two_genes)))).map
              (fun name => (name, zero_gene_prob people one_gene two_genes name)))
            0 have_trait) *
        trait_prob (one_gene.map
          (fun name => (name, one_gene_prob people one_gene two_genes name))) 1 have_trait) *
        trait_prob (two_genes.map
          (fun name => (name, two_genes_prob people one_gene two_genes name))) 2 have_trait :=
    rfl
  rw [hjoint, map_pair_prod, map_pair_prod, map_pair_prod, one_mul]
  unfold spec_joint_probability
  rw [prod_split (fun n => decide (n ∈ one_gene)) _ people.names]
  rw [prod_split (fun n => decide (n ∈ two_genes)) _
    (people.names.filter (fun n => !(decide (n ∈ one_gene))))]
  rw [filter_mem_sublist h1 hnd]
  have hnd2 : (people.names.filter (fun n => !(decide (n ∈ one_gene)))).Nodup :=
    hnd.filter _
  rw [filter_mem_sublist h2 hnd2]
  have hzero : (people.names.filter (fun n => !(decide (n ∈ one_gene)))).filter
        (fun n => !(decide (n ∈ two_genes))) =
      people.names.filter (fun name =>
        !(decide (name ∈ one_gene)) && !(decide (name ∈ two_genes))) := by
    rw [List.filter_filter]
    apply List.filter_congr
    intro a _
    exact Bool.and_comm _ _
  rw [hzero]
  have hone : one_gene.map (fun name =>
        spec_gene_prob people one_gene two_genes name *
          PROBS_trait (assigned_genes one_gene two_genes name) (decide (name ∈ have_trait))) =
      one_gene.map (fun name =>
        one_gene_prob people one_gene two_genes name *
          PROBS_trait 1 (decide (name ∈ have_trait))) := by
    apply List.map_congr_left
    intro n hn
    rw [spec_gene_prob_of_one people one_gene two_genes n hn,
      show assigned_genes one_gene two_genes n = 1 from by simp [assigned_genes, hn]]
  have htwo : two_genes.map (fun name =>
        spec_gene_prob people one_gene two_genes name *
          PROBS_trait (assigned_genes one_gene two_genes name) (decide (name ∈ have_trait))) =
      two_genes.map (fun name =>
        two_genes_prob people one_gene two_genes name *
          PROBS_trait 2 (decide (name ∈ have_trait))) := by
    apply List.map_congr_left
    intro n hn
    have hn' := h2.subset hn
    have hnot1 : n ∉ one_gene := by
      have := (List.mem_filter.mp hn').2
      simpa using this
    rw [spec_gene_prob_of_two people one_gene two_genes n hnot1 hn,
      show assigned_genes one_gene two_genes n = 2 from by simp [assigned_genes, hnot1, hn]]
  have hzm : (people.names.filter (fun name =>
          !(decide (name ∈ one_gene)) && !(decide (name ∈ two_genes)))).map (fun name =>
        spec_gene_prob people one_gene two_genes name *
          PROBS_trait (assigned_genes one_gene two_genes name) (decide (name ∈ have_trait))) =
      (people.names.filter (fun name =>
          !(decide (name ∈ one_gene)) && !(decide (name ∈ two_genes)))).map (fun name =>
        zero_gene_prob people one_gene two_genes name *
          PROBS_trait 0 (decide (name ∈ have_trait))) := by
    apply List.map_congr_left
    intro n hn
    have hboth := (List.mem_filter.mp hn).2
    have hnot1 : n ∉ one_gene := by
      have := (Bool.and_elim_left hboth)
      simpa using this
    have hnot2 : n ∉ two_genes := by
      have := (Bool.and_elim_right hboth)
      simpa using this
    rw [spec_gene_prob_of_zero people one_gene two_genes n hnot1 hnot2,
      show assigned_genes one_gene two_genes n = 0 from by
        simp [assigned_genes, hnot1, hnot2]]
  rw [hone, htwo, hzm]
  ring

/-- Witness for C1 on `trio_pop` with one_gene = ["mom"], two_genes = ["kid"],
have_trait = ["kid"]. -/
theorem joint_probability_eq_spec_witness :
    joint_probability trio_pop ["mom"] ["kid"] ["kid"] =
      spec_joint_probability trio_pop ["mom"] ["kid"] ["kid"] :=
  joint_probability_eq_spec trio_pop ["mom"] ["kid"] ["kid"] (by decide) (by decide)
    (by decide)

/-- Witness for C4 on the two-element name list ["A", "B"]. -/
theorem enumeration_counts_witness :
    ["B"] ∈ powerset ["A", "B"] ∧
    (powerset ["A", "B"]).length = 2 ^ (["A", "B"] : List String).length ∧
    (gene_pairs ["A", "B"]).length = 3 ^ (["A", "B"] : List String).length ∧
    (all_combinations ["A", "B"]).length =
      2 ^ (["A", "B"] : List String).length * 3 ^ (["A", "B"] : List String).length ∧
    2 ^ (["A", "B"] : List String).length * 3 ^ (["A", "B"] : List String).length =
      6 ^ (["A", "B"] : List String).length :=
  enumeration_counts ["A", "B"] ["B"] (by decide) (by decide)

/-- C7: for a single unobserved founder the full pipeline returns the gene
prior {0 ↦ 0.96, 1 ↦ 0.03, 2 ↦ 0.01} exactly, and the trait posterior is the
prior-weighted mixture Σ P(g)·P(trait | g) of the trait table, normalized
(the mixture already sums to 1). -/
theorem single_founder_posterior :
    (normalize harry_pop.names (run_enumeration harry_pop)).map (fun out => out ("Harry")) =
      some ⟨PROBS_gene 0, PROBS_gene 1, PROBS_gene 2,
        trait_mixture true / (trait_mixture true + trait_mixture false),
        trait_mixture false / (trait_mixture true + trait_mixture false)⟩ ∧
    trait_mixture true + trait_mixture false = 1 := by
  have htable : run_enumeration harry_pop ("Harry") =
      ⟨96/100, 3/100, 1/100, 329/10000, 9671/10000⟩ := by
    norm_num [run_enumeration, powerset, fails_evidence, score_trait_candidate, update,
      joint_probability, trait_prob, one_gene_prob, two_genes_prob, zero_gene_prob,
      person_prob, harry_pop, initDist, PROBS_gene, PROBS_trait, PROBS_mutation]
  have hg : geneSum (run_enumeration harry_pop ("Harry")) ≠ 0 := by
    rw [htable]; norm_num [geneSum]
  have ht : traitSum (run_enumeration harry_pop ("Harry")) ≠ 0 := by
    rw [htable]; norm_num [traitSum]
  have hnorm : normalize harry_pop.names (run_enumeration harry_pop) =
      some (Function.update (run_enumeration harry_pop) "Harry"
        (normalized_value (run_enumeration harry_pop ("Harry")))) := by
    show normalize ("Harry" :: []) (run_enumeration harry_pop) = _
    rw [normalize_cons_step ("Harry") [] (run_enumeration harry_pop) hg ht]
    rfl
  constructor
  · rw [hnorm, Option.map_some', Function.update_same, htable]
    simp only [Option.some.injEq]
    have hmixT : trait_mixture true = 329/10000 := by
      norm_num [trait_mixture, PROBS_gene, PROBS_trait]
    have hmixF : trait_mixture false = 9671/10000 := by
      norm_num [trait_mixture, PROBS_gene, PROBS_trait]
    rw [hmixT, hmixF]
    norm_num [normalized_value, geneSum, traitSum, PROBS_gene]
  · norm_num [trait_mixture, PROBS_gene, PROBS_trait]

end Heredity
